import Mathlib

/-!
Verification of the SEARCH/REPLACE patch application engine
(`output_format.py`).

Python strings are modelled as `List Char`.  Each definition below is a
direct translation of the corresponding Python function; the regular
expressions used by the parser and the fallback extractor are embedded via
a small backtracking matcher (`reMatch`) whose candidate ordering mirrors
the semantics of Python's `re` module (leftmost match, alternation tried
left to right, greedy `\s*`, lazy `(.*?)`).
-/

set_option maxRecDepth 10000
set_option maxHeartbeats 1600000

abbrev Str := List Char

def chars (s : String) : Str := s.toList

/-- Whitespace characters recognised by Python's `str.strip` / `re`'s `\s`
    (the Latin-1 range; astral space code points do not occur in any input
    considered here). -/
def pyWs (c : Char) : Bool :=
  c = ' ' || c = '\t' || c = '\n' || c = '\r' || c = '\x0b' || c = '\x0c' ||
  c = '\x1c' || c = '\x1d' || c = '\x1e' || c = '\x1f' || c = '\x85' || c = '\xa0'

/-- Python `str.lstrip()`. -/
def pyLstrip (s : Str) : Str := s.dropWhile pyWs

/-- Python `str.rstrip()`. -/
def pyRstrip (s : Str) : Str := (s.reverse.dropWhile pyWs).reverse

/-- Python `str.strip()`. -/
def pyStrip (s : Str) : Str := pyRstrip (pyLstrip s)

/-- Line boundary characters of Python `str.splitlines`. -/
def isLineBoundary (c : Char) : Bool :=
  c = '\n' || c = '\r' || c = '\x0b' || c = '\x0c' ||
  c = '\x1c' || c = '\x1d' || c = '\x1e' || c = '\x85' || c = '\u2028' || c = '\u2029'

/-- Worker for `pySplitlines`; `acc` holds the current line reversed. -/
def pySplitlinesGo : Str → Str → List Str
  | [], acc => [acc.reverse]
  | '\r' :: '\n' :: t, acc =>
    acc.reverse :: (if t = [] then [] else pySplitlinesGo t [])
  | c :: t, acc =>
    if isLineBoundary c then acc.reverse :: (if t = [] then [] else pySplitlinesGo t [])
    else pySplitlinesGo t (c :: acc)

/-- Python `str.splitlines()` (keepends = False): `"" ↦ []`, a final line
    terminator produces no trailing empty line, `\r\n` counts as one
    boundary. -/
def pySplitlines (s : Str) : List Str :=
  if s = [] then [] else pySplitlinesGo s []

/-- Python substring membership `sub in s`. -/
def containsSub (pat : Str) : Str → Bool
  | [] => pat.isPrefixOf []
  | s@(_ :: t) => pat.isPrefixOf s || containsSub pat t

instance {ε α : Type} [DecidableEq ε] [DecidableEq α] : DecidableEq (Except ε α) := fun a b =>
  match a, b with
  | .ok x, .ok y => if h : x = y then .isTrue (by rw [h]) else .isFalse (by simp [h])
  | .error x, .error y => if h : x = y then .isTrue (by rw [h]) else .isFalse (by simp [h])
  | .ok _, .error _ => .isFalse (by simp)
  | .error _, .ok _ => .isFalse (by simp)

structure SearchReplaceOperation where
  search_text : Str
  replace_text : Str
deriving DecidableEq

/-- `SearchReplaceFormatter._find_all_matches`: the `str.find`/`pos+1` loop
    enumerates exactly the positions at which `search` occurs (overlapping
    occurrences included), in increasing order. -/
def find_all_matches (code search : Str) : List Nat :=
  (List.range (code.length + 1)).filter (fun p => search.isPrefixOf (code.drop p))

/-- Python `str.find` (first occurrence), as used by `str.replace`. -/
def pyFind (code search : Str) : Option Nat := (find_all_matches code search).head?

/-- Python `str.replace(search, rep, 1)`. -/
def pyReplaceOne (code search rep : Str) : Str :=
  match pyFind code search with
  | none => code
  | some p => code.take p ++ rep ++ code.drop (p + search.length)

/-- `SearchReplaceFormatter._select_best_match` (first match). -/
def select_best_match (code : Str) (ms : List Nat) : Nat :=
  ms.headD 0

/-- `SearchReplaceFormatter._replace_at_position`. -/
def replace_at_position (code : Str) (op : SearchReplaceOperation) (position : Nat) : Str :=
  code.take position ++ op.replace_text ++ code.drop (position + op.search_text.length)

/-- Python `len(l) - len(l.lstrip())`: the leading-whitespace width. -/
def indentWidth (l : Str) : Nat := l.length - (pyLstrip l).length

/-- The window test of `_apply_with_normalized_whitespace` (and of the
    validator's fallback loop): every search line equals the corresponding
    code line after stripping. -/
def windowMatches (code_lines search_lines : List Str) (i : Nat) : Bool :=
  (List.range search_lines.length).all fun j =>
    pyStrip (search_lines.getD j []) == pyStrip (code_lines.getD (i + j) [])

/-- All whitespace-normalized window matches, in increasing order
    (the `matches` list built by `_apply_with_normalized_whitespace`;
    the validator's early-`break` loop succeeds iff this is nonempty). -/
def normMatches (code_lines search_lines : List Str) : List Nat :=
  (List.range (code_lines.length + 1 - search_lines.length)).filter
    (windowMatches code_lines search_lines)

/-- `SearchReplaceFormatter._select_best_line_match` (first match). -/
def select_best_line_match (code_lines : List Str) (ms : List Nat)
    (search_lines : List Str) : Nat :=
  ms.headD 0

/-- The re-indentation step of `_replace_at_line_index`: the first line of
    `replace_text`, if non-blank, gets exactly `base_indent` spaces; every
    later non-blank line gets `base_indent` plus its own leading width;
    blank lines are unchanged. -/
def prepare_replace_lines (base_indent : Nat) : List Str → List Str
  | [] => []
  | r0 :: rest =>
    (if pyStrip r0 ≠ [] then List.replicate base_indent ' ' ++ pyLstrip r0 else r0) ::
      rest.map (fun l =>
        if pyStrip l ≠ [] then
          List.replicate (base_indent + indentWidth l) ' ' ++ pyLstrip l
        else l)

/-- `SearchReplaceFormatter._replace_at_line_index`.  The only fallible
    Python step (`code_lines[line_index]`) is modelled by `Except`. -/
def replace_at_line_index (code_lines : List Str) (op : SearchReplaceOperation)
    (line_index : Nat) : Except Str Str :=
  let search_lines := pySplitlines op.search_text
  if h : line_index < code_lines.length then
    let base_indent := indentWidth (code_lines.get ⟨line_index, h⟩)
    let replace_lines := prepare_replace_lines base_indent (pySplitlines op.replace_text)
    .ok (List.intercalate (chars "\n")
      (code_lines.take line_index ++ replace_lines ++
        code_lines.drop (line_index + search_lines.length)))
  else .error (chars "list index out of range")

/-- `SearchReplaceFormatter._apply_with_normalized_whitespace`. -/
def apply_with_normalized_whitespace (code : Str) (op : SearchReplaceOperation) :
    Except Str Str :=
  let search_lines := pySplitlines op.search_text
  let code_lines := pySplitlines code
  let ms := normMatches code_lines search_lines
  if ms = [] then .ok code
  else replace_at_line_index code_lines op (select_best_line_match code_lines ms search_lines)

/-- `SearchReplaceFormatter._apply_single_operation`. -/
def apply_single_operation (code : Str) (op : SearchReplaceOperation) : Except Str Str :=
  if containsSub op.search_text code then
    let ms := find_all_matches code op.search_text
    if ms.length > 1 then .ok (replace_at_position code op (select_best_match code ms))
    else .ok (pyReplaceOne code op.search_text op.replace_text)
  else apply_with_normalized_whitespace code op

/-- `SearchReplaceFormatter.apply_search_replace_operations`. -/
def apply_search_replace_operations : Str → List SearchReplaceOperation → Except Str Str
  | code, [] => .ok code
  | code, op :: rest => do
    let modified ← apply_single_operation code op
    apply_search_replace_operations modified rest

/-- Worker of `SearchReplaceFormatter.validate_operations`; `i` is the
    0-based index of the first operation of the remaining list.  The
    validator's inner window loop with its `found` flag succeeds exactly
    when `normMatches` is nonempty. -/
def validate_go (original_code : Str) : List SearchReplaceOperation → Nat → Bool × Str
  | [], _ => (true, chars "Valid")
  | op :: rest, i =>
    if containsSub op.search_text original_code then
      validate_go original_code rest (i + 1)
    else
      let search_lines := pySplitlines op.search_text
      let code_lines := pySplitlines original_code
      if normMatches code_lines search_lines ≠ [] then
        validate_go original_code rest (i + 1)
      else
        (false, chars "SEARCH block " ++ (Nat.repr (i + 1)).toList ++
          chars " not found: '" ++ op.search_text.take 50 ++ chars "...'")

/-- `SearchReplaceFormatter.validate_operations`. -/
def validate_operations (original_code : Str) (operations : List SearchReplaceOperation) :
    Bool × Str :=
  validate_go original_code operations 0

/-! ### Embedded regular expressions

The three patterns of `output_format.py` are fixed, so they are embedded
as token sequences for a small backtracking matcher with Python `re`
semantics. -/

/-- Tokens of the embedded regular expressions:
    `lit` a literal, `wsStar` greedy `\s*`, `grp` a lazy DOTALL capture
    `(.*?)`, `alt` an ordered alternation of literals (used for the
    optional language tags, the empty string last), `optCh` a greedy
    one-character option such as `\n?`, `eolM` the MULTILINE `$`. -/
inductive RTok where
  | lit (s : Str)
  | wsStar
  | grp
  | alt (opts : List Str)
  | optCh (c : Char)
  | eolM
deriving DecidableEq

/-- First `some` produced by `f` over `l` (backtracking candidate order). -/
def firstSome (f : α → Option β) : List α → Option β
  | [] => none
  | a :: t => match f a with
    | some b => some b
    | none => firstSome f t

/-- Length of the maximal whitespace prefix. -/
def wsRun (s : Str) : Nat := (s.takeWhile pyWs).length

/-- Match a token sequence at the start of `s`, returning the captured
    groups in order and the remaining suffix.  Candidate order realises
    Python's backtracking: `wsStar` longest first, `grp` shortest first,
    `alt` in the listed order, `optCh` consuming first. -/
def reMatch : List RTok → Str → Option (List Str × Str)
  | [], s => some ([], s)
  | .lit l :: rest, s =>
    if l.isPrefixOf s then reMatch rest (s.drop l.length) else none
  | .wsStar :: rest, s =>
    let n := wsRun s
    firstSome (fun k => reMatch rest (s.drop (n - k))) (List.range (n + 1))
  | .grp :: rest, s =>
    firstSome (fun k => (reMatch rest (s.drop k)).map (fun gr => (s.take k :: gr.1, gr.2)))
      (List.range (s.length + 1))
  | .alt opts :: rest, s =>
    firstSome (fun o => if o.isPrefixOf s then reMatch rest (s.drop o.length) else none) opts
  | .optCh c :: rest, s =>
    match s with
    | [] => reMatch rest s
    | c' :: t =>
      if c' = c then
        match reMatch rest t with
        | some r => some r
        | none => reMatch rest s
      else reMatch rest s
  | .eolM :: rest, s =>
    match s with
    | [] => reMatch rest s
    | c' :: _ => if c' = '\n' then reMatch rest s else none

/-- Try an ordered list of alternative patterns at the start of `s`
    (the top-level `|` of the marker-stripping pattern). -/
def reMatchMulti (pats : List (List RTok)) (s : Str) : Option (List Str × Str) :=
  firstSome (fun p => reMatch p s) pats

/-- Leftmost match: scan positions left to right; returns the text before
    the match, the groups, and the text after the match. -/
def reSearchFromMulti (pats : List (List RTok)) : Str → Option (Str × List Str × Str)
  | [] =>
    match reMatchMulti pats [] with
    | some (gs, r) => some ([], gs, r)
    | none => none
  | s@(c :: t) =>
    match reMatchMulti pats s with
    | some (gs, r) => some ([], gs, r)
    | none => (reSearchFromMulti pats t).map (fun x => (c :: x.1, x.2.1, x.2.2))

/-- `re.finditer`: repeated leftmost matching, resuming after each match
    (one character further on an empty match, as in Python). -/
def re_finditer_go (pats : List (List RTok)) : Nat → Str → List (List Str)
  | 0, _ => []
  | fuel + 1, s =>
    match reSearchFromMulti pats s with
    | none => []
    | some (pre, gs, r) =>
      gs :: (if s.length - pre.length - r.length = 0 then
               match r with
               | [] => []
               | _ :: t => re_finditer_go pats fuel t
             else re_finditer_go pats fuel r)

def re_finditer (pats : List (List RTok)) (s : Str) : List (List Str) :=
  re_finditer_go pats (s.length + 1) s

/-- `re.sub(pattern, '', s)`: delete every non-overlapping leftmost match. -/
def reSubDelGo (pats : List (List RTok)) : Nat → Str → Str
  | 0, s => s
  | fuel + 1, s =>
    match reSearchFromMulti pats s with
    | none => s
    | some (pre, _, r) =>
      pre ++ (if s.length - pre.length - r.length = 0 then
                match r with
                | [] => []
                | c :: t => c :: reSubDelGo pats fuel t
              else reSubDelGo pats fuel r)

def reSubDel (pats : List (List RTok)) (s : Str) : Str :=
  reSubDelGo pats (s.length + 1) s

/-- The two branches of
    `` r'```(?:rust|verus|python)?\s*\n?|```\s*$' `` (MULTILINE). -/
def markerSubPats : List (List RTok) :=
  [[.lit (chars "```"), .alt [chars "rust", chars "verus", chars "python", []],
    .wsStar, .optCh '\n'],
   [.lit (chars "```"), .wsStar, .eolM]]

/-- The `re.sub` call of `parse_search_replace_response` that removes code
    block markers everywhere in the response. -/
def removeMarkers (response : Str) : Str := reSubDel markerSubPats response

/-- `` r'<{7}\s*SEARCH\s*\n(.*?)\n={7}\s*\n(.*?)\n>{7}\s*REPLACE' `` (DOTALL). -/
def editPat : List RTok :=
  [.lit (chars "<<<<<<<"), .wsStar, .lit (chars "SEARCH"), .wsStar, .lit (chars "\n"),
   .grp, .lit (chars "\n======="), .wsStar, .lit (chars "\n"),
   .grp, .lit (chars "\n>>>>>>>"), .wsStar, .lit (chars "REPLACE")]

/-- `` r'```(?:rust|verus)?\s*\n(.*?)```' `` (DOTALL), the fallback
    code-block extractor of `_apply_search_replace_format`. -/
def fbPat : List RTok :=
  [.lit (chars "```"), .alt [chars "rust", chars "verus", []], .wsStar,
   .lit (chars "\n"), .grp, .lit (chars "```")]

/-- `SearchReplaceFormatter.parse_search_replace_response`. -/
def parse_search_replace_response (response : Str) : List SearchReplaceOperation :=
  let cleaned := removeMarkers response
  (re_finditer [editPat] cleaned).map (fun gs => ⟨gs.getD 0 [], gs.getD 1 []⟩)

/-- The `re.findall` call of the orchestrator's fallback (group 1 of every
    match). -/
def findall_code_blocks (response : Str) : List Str :=
  (re_finditer [fbPat] response).map (fun gs => gs.getD 0 [])

/-- Body of `_apply_search_replace_format` inside its `try`. -/
def format_body (original_code llm_response : Str) : Except Str (Str × Bool × Str) :=
  let operations := parse_search_replace_response llm_response
  if operations = [] then
    match findall_code_blocks llm_response with
    | b :: _ => .ok (pyStrip b, true, chars "Fallback to code block extraction")
    | [] => .ok (original_code, false, chars "No SEARCH/REPLACE operations or code blocks found")
  else
    let v := validate_operations original_code operations
    if v.1 then do
      let modified ← apply_search_replace_operations original_code operations
      pure (modified, true,
        chars "Applied " ++ (Nat.repr operations.length).toList ++
          chars " SEARCH/REPLACE operations")
    else .ok (original_code, false, chars "Invalid SEARCH/REPLACE operations: " ++ v.2)

/-- `_apply_search_replace_format` (= the public `apply_search_replace_format`):
    the `try`/`except` boundary converting any internal fault into a failure
    triple carrying the original text. -/
def apply_search_replace_format (original_code llm_response : Str) : Str × Bool × Str :=
  match format_body original_code llm_response with
  | .ok t => t
  | .error e => (original_code, false, chars "Error processing SEARCH/REPLACE format: " ++ e)

/-- The resolvability test performed per operation by the validator:
    exact substring occurrence, or some whitespace-normalized window. -/
def resolvable_in (original_code : Str) (op : SearchReplaceOperation) : Bool :=
  containsSub op.search_text original_code ||
    !(normMatches (pySplitlines original_code) (pySplitlines op.search_text)).isEmpty

/-- The failure message of the validator for the (0-based) operation
    index `i`; the reported index is 1-based and the preview is the first
    50 characters of the search text. -/
def validation_fail_msg (i : Nat) (op : SearchReplaceOperation) : Str :=
  chars "SEARCH block " ++ (Nat.repr (i + 1)).toList ++
    chars " not found: '" ++ op.search_text.take 50 ++ chars "...'"

/-! ### Basic lemmas about the string primitives -/

theorem containsSub_nil_left (s : Str) : containsSub [] s = true := by
  cases s <;> simp [containsSub, List.isPrefixOf]

theorem containsSub_eq_true_iff (pat s : Str) :
    containsSub pat s = true ↔ ∃ k, pat.isPrefixOf (s.drop k) = true := by
  induction s with
  | nil =>
    simp only [containsSub]
    constructor
    · intro h; exact ⟨0, by simpa using h⟩
    · rintro ⟨k, hk⟩; simpa using hk
  | cons c t ih =>
    simp only [containsSub, Bool.or_eq_true, ih]
    constructor
    · rintro (h | ⟨k, hk⟩)
      · exact ⟨0, by simpa using h⟩
      · exact ⟨k + 1, by simpa using hk⟩
    · rintro ⟨k, hk⟩
      cases k with
      | zero => exact Or.inl (by simpa using hk)
      | succ k => exact Or.inr ⟨k, by simpa using hk⟩

theorem containsSub_eq_false_iff (pat s : Str) :
    containsSub pat s = false ↔ ∀ k, pat.isPrefixOf (s.drop k) = false := by
  constructor
  · intro h k
    cases hk : List.isPrefixOf pat (s.drop k) with
    | false => rfl
    | true =>
      have : containsSub pat s = true := (containsSub_eq_true_iff pat s).2 ⟨k, hk⟩
      rw [this] at h
      cases h
  · intro h
    cases hcs : containsSub pat s with
    | false => rfl
    | true =>
      obtain ⟨k, hk⟩ := (containsSub_eq_true_iff pat s).1 hcs
      rw [h k] at hk
      cases hk

theorem mem_find_all_matches {code search : Str} {p : Nat} :
    p ∈ find_all_matches code search ↔
      p < code.length + 1 ∧ search.isPrefixOf (code.drop p) = true := by
  simp [find_all_matches, List.mem_filter, List.mem_range]

theorem find_all_matches_ne_nil_iff (code search : Str) :
    find_all_matches code search ≠ [] ↔ containsSub search code = true := by
  rw [containsSub_eq_true_iff, Ne, List.eq_nil_iff_forall_not_mem]
  push_neg
  constructor
  · rintro ⟨p, hp⟩
    exact ⟨p, (mem_find_all_matches.1 hp).2⟩
  · rintro ⟨k, hk⟩
    by_cases h : k < code.length + 1
    · exact ⟨k, mem_find_all_matches.2 ⟨h, hk⟩⟩
    · refine ⟨0, mem_find_all_matches.2 ⟨Nat.succ_pos _, ?_⟩⟩
      have hd : code.drop k = [] := List.drop_eq_nil_of_le (by omega)
      rw [hd] at hk
      have hpat : search = [] := by
        cases search with
        | nil => rfl
        | cons a l => simp [List.isPrefixOf] at hk
      simp [hpat, List.isPrefixOf]

theorem splice_of_isPrefixOf_drop {code search : Str} {p : Nat}
    (h : search.isPrefixOf (code.drop p) = true) :
    code.take p ++ search ++ code.drop (p + search.length) = code := by
  have hpre : search <+: code.drop p := List.isPrefixOf_iff_prefix.1 h
  obtain ⟨t, ht⟩ := hpre
  have hdd : code.drop (p + search.length) = t := by
    rw [← List.drop_drop, ← ht, List.drop_left]
  rw [hdd, List.append_assoc, ht, List.take_append_drop]

/-! ### The exact-match branch of the applicator -/

theorem apply_single_operation_exact {code : Str} {op : SearchReplaceOperation} {p : Nat}
    {rest : List Nat} (h : find_all_matches code op.search_text = p :: rest) :
    apply_single_operation code op = .ok (replace_at_position code op p) := by
  have hcs : containsSub op.search_text code = true := by
    rw [← find_all_matches_ne_nil_iff, h]
    exact List.cons_ne_nil _ _
  unfold apply_single_operation
  rw [hcs, if_pos rfl, h]
  cases rest with
  | nil =>
    simp only [List.length_cons, List.length_nil]
    rw [if_neg (by omega)]
    have hfind : pyFind code op.search_text = some p := by
      rw [pyFind, h]; rfl
    simp [pyReplaceOne, hfind, replace_at_position]
  | cons q t =>
    rw [if_pos (by simp)]
    rfl

theorem head_mem_find_all_matches {code search : Str} {p : Nat} {rest : List Nat}
    (h : find_all_matches code search = p :: rest) :
    search.isPrefixOf (code.drop p) = true :=
  (mem_find_all_matches.1 (h ▸ List.mem_cons_self p rest)).2

/-- Exact-branch no-op: if the search text occurs verbatim and equals the
    replacement, the text is returned byte-identical. -/
theorem apply_single_operation_exact_noop {code : Str} {op : SearchReplaceOperation}
    (hcs : containsSub op.search_text code = true)
    (he : op.replace_text = op.search_text) :
    apply_single_operation code op = .ok code := by
  obtain ⟨p, rest, h⟩ : ∃ p rest, find_all_matches code op.search_text = p :: rest := by
    have := (find_all_matches_ne_nil_iff code op.search_text).2 hcs
    cases hm : find_all_matches code op.search_text with
    | nil => exact absurd hm this
    | cons p rest => exact ⟨p, rest, rfl⟩
  rw [apply_single_operation_exact h, replace_at_position, he,
    splice_of_isPrefixOf_drop (head_mem_find_all_matches h)]

/-- The later-occurrence shift: an occurrence at `q` that starts at or
    after the end of the replaced first occurrence reappears in the result
    at `q - |search| + |replace|`. -/
theorem isPrefixOf_replace_at_position_of_later {code : Str} {op : SearchReplaceOperation}
    {p q : Nat} (hple : p ≤ code.length)
    (hq : op.search_text.isPrefixOf (code.drop q) = true)
    (hge : p + op.search_text.length ≤ q) :
    op.search_text.isPrefixOf
      ((replace_at_position code op p).drop
        (q - op.search_text.length + op.replace_text.length)) = true := by
  have key : ∀ (a l : Str) (k : Nat), (a ++ l).drop (a.length + k) = l.drop k := by
    intro a l k
    rw [← List.drop_drop, List.drop_left]
  have hsplit : q - op.search_text.length + op.replace_text.length =
      (code.take p).length + (op.replace_text.length + (q - op.search_text.length - p)) := by
    rw [List.length_take]; omega
  rw [replace_at_position, List.append_assoc, hsplit, key, key, List.drop_drop]
  have hidx : p + op.search_text.length + (q - op.search_text.length - p) = q := by omega
  rw [hidx]
  exact hq

/-! ### Validator lemmas -/

theorem validate_go_cons (orig : Str) (op : SearchReplaceOperation)
    (rest : List SearchReplaceOperation) (i : Nat) :
    validate_go orig (op :: rest) i =
      if resolvable_in orig op then validate_go orig rest (i + 1)
      else (false, validation_fail_msg i op) := by
  rw [validate_go, resolvable_in]
  cases hcs : containsSub op.search_text orig with
  | true => simp
  | false =>
    simp only [Bool.false_or]
    cases hnm : normMatches (pySplitlines orig) (pySplitlines op.search_text) with
    | nil => simp [validation_fail_msg]
    | cons a l => simp

theorem validate_go_of_all_resolvable {orig : Str} {ops : List SearchReplaceOperation}
    (h : ∀ o ∈ ops, resolvable_in orig o = true) (i : Nat) :
    validate_go orig ops i = (true, chars "Valid") := by
  induction ops generalizing i with
  | nil => rw [validate_go]
  | cons op rest ih =>
    rw [validate_go_cons, if_pos (h op (List.mem_cons_self _ _))]
    exact ih (fun o ho => h o (List.mem_cons_of_mem _ ho)) (i + 1)

theorem validate_go_append_fail {orig : Str} {pre : List SearchReplaceOperation}
    {op : SearchReplaceOperation} (post : List SearchReplaceOperation)
    (hpre : ∀ o ∈ pre, resolvable_in orig o = true)
    (hop : resolvable_in orig op = false) (i : Nat) :
    validate_go orig (pre ++ op :: post) i = (false, validation_fail_msg (i + pre.length) op) := by
  induction pre generalizing i with
  | nil =>
    rw [List.nil_append, validate_go_cons, if_neg (by rw [hop]; exact Bool.false_ne_true)]
    simp
  | cons o t ih =>
    rw [List.cons_append, validate_go_cons, if_pos (hpre o (List.mem_cons_self _ _)),
      ih (fun x hx => hpre x (List.mem_cons_of_mem _ hx)) (i + 1)]
    have : i + 1 + t.length = i + (t.length + 1) := by omega
    rw [this]
    rfl

theorem validate_go_fst_false_of_mem {orig : Str} {ops : List SearchReplaceOperation}
    {op : SearchReplaceOperation} (hmem : op ∈ ops)
    (hop : resolvable_in orig op = false) (i : Nat) :
    (validate_go orig ops i).1 = false := by
  induction ops generalizing i with
  | nil => cases hmem
  | cons o t ih =>
    rw [validate_go_cons]
    by_cases hro : resolvable_in orig o = true
    · rw [if_pos hro]
      rcases List.mem_cons.1 hmem with rfl | hmem'
      · rw [hro] at hop; cases hop
      · exact ih hmem' (i + 1)
    · rw [if_neg hro]

/-! ### Totality of the application pipeline -/

theorem pySplitlinesGo_ne_nil (s acc : Str) : pySplitlinesGo s acc ≠ [] := by
  generalize hn : s.length = n
  induction n using Nat.strong_induction_on generalizing s acc with
  | _ n ih =>
    rcases s with _ | ⟨c, t⟩
    · rw [pySplitlinesGo.eq_1]
      simp
    · by_cases hc : c = '\r' ∧ ∃ t2, t = '\n' :: t2
      · obtain ⟨rfl, t2, rfl⟩ := hc
        rw [pySplitlinesGo.eq_2]
        simp
      · have hcond : ∀ t2 : List Char, c = '\r' → t = '\n' :: t2 → False := by
          intro t2 h1 h2
          exact hc ⟨h1, t2, h2⟩
        rw [pySplitlinesGo.eq_3 acc c t hcond]
        split
        · simp
        · have hlt : t.length < n := by
            simp only [List.length_cons] at hn
            omega
          exact ih t.length hlt t (c :: acc) rfl

theorem pySplitlines_ne_nil {s : Str} (h : s ≠ []) : pySplitlines s ≠ [] := by
  rw [pySplitlines, if_neg h]
  exact pySplitlinesGo_ne_nil s []

theorem mem_normMatches_bound {code_lines search_lines : List Str} {i : Nat}
    (h : i ∈ normMatches code_lines search_lines) :
    i + search_lines.length ≤ code_lines.length := by
  have := (List.mem_filter.1 h).1
  rw [List.mem_range] at this
  omega

theorem apply_with_normalized_whitespace_ok {code : Str} {op : SearchReplaceOperation}
    (hne : op.search_text ≠ []) :
    ∃ t, apply_with_normalized_whitespace code op = .ok t := by
  rw [apply_with_normalized_whitespace]
  cases hm : normMatches (pySplitlines code) (pySplitlines op.search_text) with
  | nil => exact ⟨code, by simp⟩
  | cons i rest =>
    simp only [List.cons_ne_nil, if_neg, reduceCtorEq]
    have hi : i ∈ normMatches (pySplitlines code) (pySplitlines op.search_text) := by
      rw [hm]; exact List.mem_cons_self _ _
    have hbound := mem_normMatches_bound hi
    have hsl : pySplitlines op.search_text ≠ [] := pySplitlines_ne_nil hne
    have hslpos : 0 < (pySplitlines op.search_text).length := List.length_pos.2 hsl
    have hlt : select_best_line_match (pySplitlines code) (i :: rest)
        (pySplitlines op.search_text) < (pySplitlines code).length := by
      rw [select_best_line_match, List.headD_cons]
      omega
    rw [replace_at_line_index, dif_pos hlt]
    exact ⟨_, rfl⟩

theorem apply_single_operation_ok (code : Str) (op : SearchReplaceOperation) :
    ∃ t, apply_single_operation code op = .ok t := by
  rw [apply_single_operation]
  cases hcs : containsSub op.search_text code with
  | true =>
    by_cases hlen : (find_all_matches code op.search_text).length > 1
    · rw [if_pos rfl, if_pos hlen]
      exact ⟨_, rfl⟩
    · rw [if_pos rfl, if_neg hlen]
      exact ⟨_, rfl⟩
  | false =>
    rw [if_neg (by simp)]
    have hne : op.search_text ≠ [] := by
      intro hnil
      rw [hnil, containsSub_nil_left] at hcs
      cases hcs
    exact apply_with_normalized_whitespace_ok hne

theorem apply_search_replace_operations_ok (ops : List SearchReplaceOperation) (code : Str) :
    ∃ t, apply_search_replace_operations code ops = .ok t := by
  induction ops generalizing code with
  | nil => exact ⟨code, rfl⟩
  | cons op rest ih =>
    obtain ⟨m, hm⟩ := apply_single_operation_ok code op
    obtain ⟨t, ht⟩ := ih m
    refine ⟨t, ?_⟩
    rw [apply_search_replace_operations, hm]
    exact ht

theorem format_body_ok (original_code llm_response : Str) :
    ∃ t, format_body original_code llm_response = .ok t := by
  rw [format_body]
  by_cases hops : parse_search_replace_response llm_response = []
  · rw [if_pos hops]
    cases findall_code_blocks llm_response with
    | nil => exact ⟨_, rfl⟩
    | cons b rest => exact ⟨_, rfl⟩
  · rw [if_neg hops]
    by_cases hv : (validate_operations original_code (parse_search_replace_response llm_response)).1 = true
    · rw [if_pos hv]
      obtain ⟨t, ht⟩ := apply_search_replace_operations_ok
        (parse_search_replace_response llm_response) original_code
      refine ⟨(t, true, chars "Applied " ++
        (Nat.repr (parse_search_replace_response llm_response).length).toList ++
        chars " SEARCH/REPLACE operations"), ?_⟩
      rw [ht]
      rfl
    · rw [if_neg hv]
      exact ⟨_, rfl⟩

theorem apply_search_replace_format_eq_of_body {original_code llm_response : Str}
    {t : Str × Bool × Str} (h : format_body original_code llm_response = .ok t) :
    apply_search_replace_format original_code llm_response = t := by
  rw [apply_search_replace_format, h]

/-! ### The normalized-fallback branch -/

theorem apply_single_operation_normalized {code : Str} {op : SearchReplaceOperation}
    (hna : containsSub op.search_text code = false) :
    apply_single_operation code op = apply_with_normalized_whitespace code op := by
  rw [apply_single_operation, hna]
  simp

theorem apply_with_normalized_whitespace_eq_replace {code : Str} {op : SearchReplaceOperation}
    {i : Nat} {rest : List Nat}
    (hm : normMatches (pySplitlines code) (pySplitlines op.search_text) = i :: rest) :
    apply_with_normalized_whitespace code op =
      replace_at_line_index (pySplitlines code) op i := by
  rw [apply_with_normalized_whitespace]
  simp only [hm, select_best_line_match, List.headD_cons]
  rw [if_neg (List.cons_ne_nil i rest)]

theorem head_normMatches_lt {code : Str} {op : SearchReplaceOperation} {i : Nat}
    {rest : List Nat}
    (hna : containsSub op.search_text code = false)
    (hm : normMatches (pySplitlines code) (pySplitlines op.search_text) = i :: rest) :
    i < (pySplitlines code).length := by
  have hi : i ∈ normMatches (pySplitlines code) (pySplitlines op.search_text) := by
    rw [hm]
    exact List.mem_cons_self _ _
  have hbound := mem_normMatches_bound hi
  have hne : op.search_text ≠ [] := by
    intro hnil
    rw [hnil, containsSub_nil_left] at hna
    cases hna
  have hpos : 0 < (pySplitlines op.search_text).length :=
    List.length_pos.2 (pySplitlines_ne_nil hne)
  omega

theorem replace_at_line_index_eq {code_lines : List Str} {op : SearchReplaceOperation}
    {i : Nat} (h : i < code_lines.length) :
    replace_at_line_index code_lines op i =
      .ok (List.intercalate (chars "\n")
        (code_lines.take i ++
          prepare_replace_lines (indentWidth (code_lines.getD i []))
            (pySplitlines op.replace_text) ++
          code_lines.drop (i + (pySplitlines op.search_text).length))) := by
  rw [replace_at_line_index]
  simp only [dif_pos h]
  rw [List.getD_eq_getElem _ _ h]
  rfl

/-! ### Leading-whitespace lemmas for the re-indentation step -/

theorem pyLstrip_head_not_ws {l : Str} {c : Char} {t : Str}
    (h : pyLstrip l = c :: t) : pyWs c = false := by
  induction l with
  | nil => cases h
  | cons a l ih =>
    rw [pyLstrip, List.dropWhile_cons] at h
    by_cases hp : pyWs a = true
    · rw [if_pos hp] at h
      exact ih h
    · rw [if_neg hp] at h
      cases h
      simpa using hp

theorem pyLstrip_ne_nil_of_pyStrip_ne_nil {l : Str} (h : pyStrip l ≠ []) :
    pyLstrip l ≠ [] := by
  intro hl
  rw [pyStrip, hl] at h
  exact h rfl

theorem pyLstrip_replicate_space_append (b : Nat) (c : Char) (t : Str)
    (hc : pyWs c = false) :
    pyLstrip (List.replicate b ' ' ++ c :: t) = c :: t := by
  induction b with
  | zero =>
    rw [List.replicate_zero, List.nil_append, pyLstrip, List.dropWhile_cons, if_neg (by simp [hc])]
  | succ b ih =>
    rw [List.replicate_succ, List.cons_append, pyLstrip, List.dropWhile_cons,
      if_pos (by decide)]
    exact ih

theorem indentWidth_replicate_append {b : Nat} {c : Char} {t : Str}
    (hc : pyWs c = false) :
    indentWidth (List.replicate b ' ' ++ c :: t) = b := by
  rw [indentWidth, pyLstrip_replicate_space_append b c t hc]
  simp

theorem prepare_replace_lines_getD_zero (b : Nat) (r0 : Str) (rs : List Str) :
    (prepare_replace_lines b (r0 :: rs)).getD 0 [] =
      if pyStrip r0 ≠ [] then List.replicate b ' ' ++ pyLstrip r0 else r0 := by
  rw [prepare_replace_lines]
  rfl

theorem prepare_replace_lines_getD_succ (b : Nat) (r0 : Str) (rs : List Str) (k : Nat)
    (hk : k < rs.length) :
    (prepare_replace_lines b (r0 :: rs)).getD (k + 1) [] =
      (if pyStrip (rs.getD k []) ≠ [] then
        List.replicate (b + indentWidth (rs.getD k [])) ' ' ++ pyLstrip (rs.getD k [])
      else rs.getD k []) := by
  rw [prepare_replace_lines, List.getD_cons_succ]
  rw [List.getD_eq_getElem _ _ (by simpa using hk), List.getElem_map,
    List.getD_eq_getElem _ _ hk]

theorem prepare_replace_lines_length (b : Nat) (rl : List Str) :
    (prepare_replace_lines b rl).length = rl.length := by
  cases rl with
  | nil => rfl
  | cons r0 rs => simp [prepare_replace_lines]

/-! ### Character content of the line lists (for the `\r\n` normalization) -/

theorem not_boundary_mem_pySplitlinesGo {s : Str} :
    ∀ {acc l : Str} {c : Char},
      (∀ a ∈ acc, isLineBoundary a = false) →
      l ∈ pySplitlinesGo s acc → c ∈ l → isLineBoundary c = false := by
  generalize hn : s.length = n
  induction n using Nat.strong_induction_on generalizing s with
  | _ n ih =>
    intro acc l c hacc hl hc
    rcases s with _ | ⟨a, t⟩
    · rw [pySplitlinesGo.eq_1] at hl
      rcases List.mem_singleton.1 hl with rfl
      exact hacc c (List.mem_reverse.1 hc)
    · by_cases ha : a = '\r' ∧ ∃ t2, t = '\n' :: t2
      · obtain ⟨rfl, t2, rfl⟩ := ha
        rw [pySplitlinesGo.eq_2] at hl
        rcases List.mem_cons.1 hl with rfl | hl'
        · exact hacc c (List.mem_reverse.1 hc)
        · by_cases ht2 : t2 = []
          · rw [if_pos ht2] at hl'
            cases hl'
          · rw [if_neg ht2] at hl'
            have hlen : t2.length < n := by
              simp only [List.length_cons] at hn
              omega
            exact ih t2.length hlen rfl (by intro x hx; cases hx) hl' hc
      · have hcond : ∀ t2 : List Char, a = '\r' → t = '\n' :: t2 → False := by
          intro t2 h1 h2
          exact ha ⟨h1, t2, h2⟩
        rw [pySplitlinesGo.eq_3 _ a t hcond] at hl
        have hlen : t.length < n := by
          simp only [List.length_cons] at hn
          omega
        by_cases hb : isLineBoundary a = true
        · rw [if_pos hb] at hl
          rcases List.mem_cons.1 hl with rfl | hl'
          · exact hacc c (List.mem_reverse.1 hc)
          · by_cases ht : t = []
            · rw [if_pos ht] at hl'
              cases hl'
            · rw [if_neg ht] at hl'
              exact ih t.length hlen rfl (by intro x hx; cases hx) hl' hc
        · rw [if_neg hb] at hl
          refine ih t.length hlen rfl ?_ hl hc
          intro x hx
          rcases List.mem_cons.1 hx with rfl | hx'
          · simpa using hb
          · exact hacc x hx'

theorem not_boundary_mem_pySplitlines {s l : Str} {c : Char}
    (hl : l ∈ pySplitlines s) (hc : c ∈ l) : isLineBoundary c = false := by
  rw [pySplitlines] at hl
  by_cases hs : s = []
  · rw [if_pos hs] at hl
    cases hl
  · rw [if_neg hs] at hl
    exact not_boundary_mem_pySplitlinesGo (by intro a ha; cases ha) hl hc

theorem cr_not_mem_pySplitlines {s l : Str} (hl : l ∈ pySplitlines s) : '\r' ∉ l := by
  intro hc
  have := not_boundary_mem_pySplitlines hl hc
  rw [isLineBoundary] at this
  simp at this

theorem cr_not_mem_pyLstrip {l : Str} (h : '\r' ∉ l) : '\r' ∉ pyLstrip l :=
  fun hc => h ((List.dropWhile_sublist _).mem hc)

theorem cr_not_mem_prepare_replace_lines {b : Nat} {rl : List Str} {l : Str}
    (hrl : ∀ x ∈ rl, '\r' ∉ x) (hl : l ∈ prepare_replace_lines b rl) : '\r' ∉ l := by
  cases rl with
  | nil => cases hl
  | cons r0 rs =>
    rw [prepare_replace_lines] at hl
    rcases List.mem_cons.1 hl with rfl | hl'
    · split
      · intro hc
        rcases List.mem_append.1 hc with hc1 | hc2
        · simpa using List.eq_of_mem_replicate hc1
        · exact cr_not_mem_pyLstrip (hrl r0 (List.mem_cons_self _ _)) hc2
      · exact hrl r0 (List.mem_cons_self _ _)
    · obtain ⟨x, hx, rfl⟩ := List.mem_map.1 hl'
      have hx' : '\r' ∉ x := hrl x (List.mem_cons_of_mem _ hx)
      split
      · intro hc
        rcases List.mem_append.1 hc with hc1 | hc2
        · simpa using List.eq_of_mem_replicate hc1
        · exact cr_not_mem_pyLstrip hx' hc2
      · exact hx'

theorem intercalate_nil_sep (sep : Str) : List.intercalate sep ([] : List Str) = [] := rfl

theorem intercalate_single (sep x : Str) : List.intercalate sep [x] = x := by
  simp [List.intercalate]

theorem intercalate_cons_cons (sep x y : Str) (t : List Str) :
    List.intercalate sep (x :: y :: t) = x ++ sep ++ List.intercalate sep (y :: t) := by
  simp [List.intercalate, List.intersperse_cons_cons, List.append_assoc]

theorem not_mem_intercalate {c : Char} {sep : Str} {L : List Str}
    (hsep : c ∉ sep) (hL : ∀ l ∈ L, c ∉ l) : c ∉ List.intercalate sep L := by
  induction L with
  | nil =>
    rw [intercalate_nil_sep]
    exact List.not_mem_nil c
  | cons x t ih =>
    cases t with
    | nil =>
      rw [intercalate_single]
      exact hL x (List.mem_cons_self _ _)
    | cons y t' =>
      rw [intercalate_cons_cons]
      intro hc
      rcases List.mem_append.1 hc with hc1 | hc2
      · rcases List.mem_append.1 hc1 with hc3 | hc4
        · exact hL x (List.mem_cons_self _ _) hc3
        · exact hsep hc4
      · exact ih (fun l hl => hL l (List.mem_cons_of_mem _ hl)) hc2

/-! ### Lemmas about the embedded regex engine -/

theorem firstSome_eq_some {f : α → Option β} {l : List α} {b : β}
    (h : firstSome f l = some b) : ∃ a ∈ l, f a = some b := by
  induction l with
  | nil => cases h
  | cons x t ih =>
    rw [firstSome] at h
    cases hx : f x with
    | some y =>
      rw [hx] at h
      cases h
      exact ⟨x, List.mem_cons_self _ _, hx⟩
    | none =>
      rw [hx] at h
      obtain ⟨a, ha, hfa⟩ := ih h
      exact ⟨a, List.mem_cons_of_mem _ ha, hfa⟩

theorem firstSome_ne_none {f : α → Option β} {l : List α} {a : α}
    (ha : a ∈ l) (hfa : f a ≠ none) : firstSome f l ≠ none := by
  induction l with
  | nil => cases ha
  | cons x t ih =>
    rw [firstSome]
    cases hx : f x with
    | some y => simp
    | none =>
      rcases List.mem_cons.1 ha with rfl | ha'
      · exact absurd hx hfa
      · exact ih ha'

theorem reMatch_suffix {pat : List RTok} :
    ∀ {s : Str} {gs : List Str} {r : Str}, reMatch pat s = some (gs, r) → r <:+ s := by
  induction pat with
  | nil =>
    intro s gs r h
    rw [reMatch] at h
    cases h
    exact List.suffix_refl s
  | cons tok rest ih =>
    intro s gs r h
    cases tok with
    | lit l =>
      rw [reMatch] at h
      by_cases hp : l.isPrefixOf s = true
      · rw [if_pos hp] at h
        exact (ih h).trans (List.drop_suffix _ _)
      · rw [if_neg hp] at h
        cases h
    | wsStar =>
      rw [reMatch] at h
      obtain ⟨k, _, hk⟩ := firstSome_eq_some h
      exact (ih hk).trans (List.drop_suffix _ _)
    | grp =>
      rw [reMatch] at h
      obtain ⟨k, _, hk⟩ := firstSome_eq_some h
      cases hmk : reMatch rest (s.drop k) with
      | none => rw [hmk] at hk; cases hk
      | some gr =>
        rw [hmk] at hk
        obtain ⟨gs', r'⟩ := gr
        injection hk with hk2
        have : r' = r := congrArg Prod.snd hk2
        subst this
        exact (ih hmk).trans (List.drop_suffix _ _)
    | alt opts =>
      rw [reMatch] at h
      obtain ⟨o, _, ho⟩ := firstSome_eq_some h
      by_cases hp : o.isPrefixOf s = true
      · rw [if_pos hp] at ho
        exact (ih ho).trans (List.drop_suffix _ _)
      · rw [if_neg hp] at ho
        cases ho
    | optCh c =>
      cases s with
      | nil =>
        rw [reMatch] at h
        exact (ih h).trans (List.suffix_refl _)
      | cons c' t =>
        rw [reMatch] at h
        by_cases hc : c' = c
        · rw [if_pos hc] at h
          cases hmk : reMatch rest t with
          | none =>
            rw [hmk] at h
            exact ih h
          | some x =>
            rw [hmk] at h
            cases h
            exact (ih hmk).trans (List.suffix_cons _ _)
        · rw [if_neg hc] at h
          exact ih h
    | eolM =>
      cases s with
      | nil =>
        rw [reMatch] at h
        exact ih h
      | cons c' t =>
        rw [reMatch] at h
        by_cases hc : c' = '\n'
        · rw [if_pos hc] at h
          exact ih h
        · rw [if_neg hc] at h
          cases h

theorem reMatchMulti_suffix {pats : List (List RTok)} {s : Str} {gs : List Str} {r : Str}
    (h : reMatchMulti pats s = some (gs, r)) : r <:+ s := by
  obtain ⟨p, _, hp⟩ := firstSome_eq_some h
  exact reMatch_suffix hp

theorem marker_match_shape {s : Str} {gs : List Str} {r : Str}
    (h : reMatchMulti markerSubPats s = some (gs, r)) :
    (chars "```").isPrefixOf s = true ∧ r.length + 3 ≤ s.length := by
  obtain ⟨p, hpmem, hp⟩ := firstSome_eq_some h
  rw [markerSubPats] at hpmem
  have hlit : ∃ rest, p = RTok.lit (chars "```") :: rest := by
    rcases List.mem_cons.1 hpmem with rfl | hpmem'
    · exact ⟨_, rfl⟩
    · rcases List.mem_cons.1 hpmem' with rfl | hpmem''
      · exact ⟨_, rfl⟩
      · cases hpmem''
  obtain ⟨rest, rfl⟩ := hlit
  rw [reMatch] at hp
  by_cases hpre : (chars "```").isPrefixOf s = true
  · rw [if_pos hpre] at hp
    refine ⟨hpre, ?_⟩
    have hsuf : r <:+ s.drop (chars "```").length := reMatch_suffix hp
    have hlen1 : r.length ≤ (s.drop (chars "```").length).length := hsuf.length_le
    have hlen2 : (chars "```").length ≤ s.length :=
      (List.isPrefixOf_iff_prefix.1 hpre).length_le
    have h3 : (chars "```").length = 3 := rfl
    rw [List.length_drop] at hlen1
    omega
  · rw [if_neg hpre] at hp
    cases hp

theorem reMatch_optCh_ne_none (c : Char) (t : Str) : reMatch [RTok.optCh c] t ≠ none := by
  cases t with
  | nil =>
    rw [reMatch]
    simp [reMatch]
  | cons c' t' =>
    rw [reMatch]
    by_cases hc : c' = c
    · rw [if_pos hc]
      cases hmk : reMatch [] t' with
      | none => rw [reMatch] at hmk; cases hmk
      | some x => simp
    · rw [if_neg hc]
      simp [reMatch]

theorem reMatch_wsStar_optCh_ne_none (t : Str) :
    reMatch [RTok.wsStar, RTok.optCh '\n'] t ≠ none := by
  rw [reMatch]
  refine firstSome_ne_none (a := 0) ?_ ?_
  · exact List.mem_range.2 (Nat.succ_pos _)
  · exact reMatch_optCh_ne_none '\n' (t.drop (wsRun t - 0))

theorem fence_start_matches {s : Str} (hpre : (chars "```").isPrefixOf s = true) :
    reMatchMulti markerSubPats s ≠ none := by
  rw [reMatchMulti, markerSubPats]
  refine firstSome_ne_none (a := [RTok.lit (chars "```"),
    RTok.alt [chars "rust", chars "verus", chars "python", []],
    RTok.wsStar, RTok.optCh '\n']) (List.mem_cons_self _ _) ?_
  rw [reMatch, if_pos hpre, reMatch]
  refine firstSome_ne_none (a := []) ?_ ?_
  · simp
  · have hnil : (List.isPrefixOf ([] : Str) (s.drop (chars "```").length)) = true :=
      List.isPrefixOf_iff_prefix.2 List.nil_prefix
    rw [if_pos hnil]
    exact reMatch_wsStar_optCh_ne_none _

theorem reSearchFromMulti_none {pats : List (List RTok)} :
    ∀ {s : Str}, reSearchFromMulti pats s = none →
      ∀ k, reMatchMulti pats (s.drop k) = none := by
  intro s
  induction s with
  | nil =>
    intro h k
    rw [reSearchFromMulti] at h
    rw [List.drop_nil]
    cases hm : reMatchMulti pats [] with
    | none => rfl
    | some x =>
      obtain ⟨gs, r⟩ := x
      rw [hm] at h
      cases h
  | cons c t ih =>
    intro h k
    rw [reSearchFromMulti] at h
    cases hm : reMatchMulti pats (c :: t) with
    | some x =>
      obtain ⟨gs, r⟩ := x
      rw [hm] at h
      cases h
    | none =>
      rw [hm] at h
      have ht : reSearchFromMulti pats t = none := by
        cases hts : reSearchFromMulti pats t with
        | none => rfl
        | some x =>
          rw [hts] at h
          cases h
      cases k with
      | zero => exact hm
      | succ k => exact ih ht k

theorem reSearchFromMulti_some {pats : List (List RTok)} :
    ∀ {s pre : Str} {gs : List Str} {r : Str},
      reSearchFromMulti pats s = some (pre, gs, r) →
      ∃ m, s = pre ++ m ++ r ∧ reMatchMulti pats (m ++ r) = some (gs, r) ∧
        ∀ k, k < pre.length → reMatchMulti pats ((pre ++ m ++ r).drop k) = none := by
  intro s
  induction s with
  | nil =>
    intro pre gs r h
    rw [reSearchFromMulti] at h
    cases hm : reMatchMulti pats [] with
    | none => rw [hm] at h; cases h
    | some x =>
      obtain ⟨gs', r'⟩ := x
      rw [hm] at h
      injection h with h1
      have hpre : pre = [] := (congrArg Prod.fst h1).symm
      have hgs : gs = gs' := (congrArg Prod.fst (congrArg Prod.snd h1)).symm
      have hrr : r = r' := (congrArg Prod.snd (congrArg Prod.snd h1)).symm
      subst hpre
      subst hgs
      subst hrr
      have hr : r = [] := List.eq_nil_of_suffix_nil (reMatchMulti_suffix hm)
      subst hr
      exact ⟨[], rfl, hm, by intro k hk; cases hk⟩
  | cons c t ih =>
    intro pre gs r h
    rw [reSearchFromMulti] at h
    cases hm : reMatchMulti pats (c :: t) with
    | some x =>
      obtain ⟨gs', r'⟩ := x
      rw [hm] at h
      injection h with h1
      have hpre : pre = [] := (congrArg Prod.fst h1).symm
      have hgs : gs = gs' := (congrArg Prod.fst (congrArg Prod.snd h1)).symm
      have hrr : r = r' := (congrArg Prod.snd (congrArg Prod.snd h1)).symm
      subst hpre
      subst hgs
      subst hrr
      obtain ⟨m, hmr⟩ := reMatchMulti_suffix hm
      refine ⟨m, by rw [List.nil_append, hmr], by rw [hmr]; exact hm, ?_⟩
      intro k hk
      cases hk
    | none =>
      rw [hm] at h
      cases hts : reSearchFromMulti pats t with
      | none => rw [hts] at h; cases h
      | some x =>
        obtain ⟨pre', gs', r'⟩ := x
        rw [hts] at h
        injection h with h1
        have hpre : pre = c :: pre' := (congrArg Prod.fst h1).symm
        have hgs : gs = gs' := (congrArg Prod.fst (congrArg Prod.snd h1)).symm
        have hr : r = r' := (congrArg Prod.snd (congrArg Prod.snd h1)).symm
        subst hpre
        subst hgs
        subst hr
        obtain ⟨m, hts2, hmm, hnone⟩ := ih hts
        refine ⟨m, by rw [List.cons_append, List.cons_append, ← hts2], hmm, ?_⟩
        intro k hk
        cases k with
        | zero =>
          rw [List.drop_zero, List.cons_append, List.cons_append, ← hts2]
          exact hm
        | succ k =>
          rw [List.cons_append, List.cons_append, List.drop_succ_cons]
          exact hnone k (by simpa using Nat.lt_of_succ_lt_succ hk)

theorem drop_append_left (a l : Str) (k : Nat) : (a ++ l).drop (a.length + k) = l.drop k := by
  rw [← List.drop_drop, List.drop_left]

theorem isPrefixOf_append_of_isPrefixOf {pat a : Str} (h : pat.isPrefixOf a = true)
    (b : Str) : pat.isPrefixOf (a ++ b) = true := by
  rw [List.isPrefixOf_iff_prefix] at h ⊢
  exact h.trans (List.prefix_append a b)

theorem isPrefixOf_of_isPrefixOf_append {pat a b : Str} (hlen : pat.length ≤ a.length)
    (h : pat.isPrefixOf (a ++ b) = true) : pat.isPrefixOf a = true := by
  rw [List.isPrefixOf_iff_prefix] at h ⊢
  obtain ⟨t, ht⟩ := h
  rw [List.prefix_iff_eq_take]
  have h1 : (pat ++ t).take pat.length = pat := List.take_left pat t
  rw [ht, List.take_append_eq_append_take, show pat.length - a.length = 0 from by omega,
    List.take_zero, List.append_nil] at h1
  exact h1.symm

/-- `re.sub` of the marker pattern removes every fenced-code marker: no
    occurrence of three backticks survives in its output. -/
theorem reSubDelGo_succ_none {pats : List (List RTok)} {fuel : Nat} {s : Str}
    (hsr : reSearchFromMulti pats s = none) :
    reSubDelGo pats (fuel + 1) s = s := by
  rw [reSubDelGo, hsr]

theorem reSubDelGo_succ_some {pats : List (List RTok)} {fuel : Nat} {s pre : Str}
    {gs : List Str} {r : Str}
    (hsr : reSearchFromMulti pats s = some (pre, gs, r))
    (hcons : s.length - pre.length - r.length ≠ 0) :
    reSubDelGo pats (fuel + 1) s = pre ++ reSubDelGo pats fuel r := by
  rw [reSubDelGo, hsr]
  simp [hcons]

theorem reSubDelGo_no_triple :
    ∀ (fuel : Nat) (s : Str), s.length < fuel →
      containsSub (chars "```") (reSubDelGo markerSubPats fuel s) = false := by
  intro fuel
  induction fuel with
  | zero =>
    intro s hs
    omega
  | succ fuel ih =>
    intro s hs
    cases hsr : reSearchFromMulti markerSubPats s with
    | none =>
      rw [reSubDelGo_succ_none hsr, containsSub_eq_false_iff]
      intro k
      cases hp : (chars "```").isPrefixOf (s.drop k) with
      | false => rfl
      | true => exact absurd (reSearchFromMulti_none hsr k) (fence_start_matches hp)
    | some x =>
      obtain ⟨pre, gs, r⟩ := x
      obtain ⟨m, hs_eq, hmm, hnone⟩ := reSearchFromMulti_some hsr
      obtain ⟨hpre3, hshape⟩ := marker_match_shape hmm
      have hm3 : 3 ≤ m.length := by
        rw [List.length_append] at hshape
        omega
      have hslen : s.length = pre.length + m.length + r.length := by
        rw [hs_eq]
        simp [List.length_append]
        omega
      have hcons : s.length - pre.length - r.length ≠ 0 := by omega
      rw [reSubDelGo_succ_some hsr hcons]
      have hr_lt : r.length < fuel := by omega
      have hout := ih r hr_lt
      rw [containsSub_eq_false_iff]
      intro k
      by_cases hk : k < pre.length
      · have hdrop : (pre ++ reSubDelGo markerSubPats fuel r).drop k =
            pre.drop k ++ reSubDelGo markerSubPats fuel r := by
          rw [List.drop_append_eq_append_drop, show k - pre.length = 0 from by omega,
            List.drop_zero]
        rw [hdrop]
        cases hp : (chars "```").isPrefixOf
            (pre.drop k ++ reSubDelGo markerSubPats fuel r) with
        | false => rfl
        | true =>
          exfalso
          have hnm := hnone k hk
          have hppp : (pre ++ m ++ r).drop k = pre.drop k ++ (m ++ r) := by
            rw [List.append_assoc, List.drop_append_eq_append_drop,
              show k - pre.length = 0 from by omega, List.drop_zero]
          rw [hppp] at hnm
          have hnp : (chars "```").isPrefixOf (pre.drop k ++ (m ++ r)) = false := by
            cases hq : (chars "```").isPrefixOf (pre.drop k ++ (m ++ r)) with
            | false => rfl
            | true => exact absurd hnm (fence_start_matches hq)
          have hplen : 0 < (pre.drop k).length := by
            rw [List.length_drop]
            omega
          have hm_pre : (chars "```").isPrefixOf m = true :=
            isPrefixOf_of_isPrefixOf_append
              (by rw [show (chars "```").length = 3 from rfl]; omega) hpre3
          obtain ⟨u, hu⟩ := List.isPrefixOf_iff_prefix.1 hm_pre
          by_cases h3p : 3 ≤ (pre.drop k).length
          · have hp3 : (chars "```").isPrefixOf (pre.drop k) = true :=
              isPrefixOf_of_isPrefixOf_append
                (by rw [show (chars "```").length = 3 from rfl]; omega) hp
            rw [isPrefixOf_append_of_isPrefixOf hp3 (m ++ r)] at hnp
            cases hnp
          · have hchars : chars "```" = ['`', '`', '`'] := rfl
            rcases hpk : pre.drop k with _ | ⟨a, _ | ⟨b, _ | ⟨c3, prest⟩⟩⟩
            · rw [hpk] at hplen
              cases hplen
            · rw [hpk, hchars] at hp
              have ha : a = '`' := by
                simp [List.isPrefixOf] at hp
                exact hp.1.symm
              rw [hpk, hchars, ← hu, hchars, ha] at hnp
              simp [List.isPrefixOf] at hnp
            · rw [hpk, hchars] at hp
              have hab : a = '`' ∧ b = '`' := by
                simp [List.isPrefixOf] at hp
                exact ⟨hp.1.symm, hp.2.1.symm⟩
              rw [hpk, hchars, ← hu, hchars, hab.1, hab.2] at hnp
              simp [List.isPrefixOf] at hnp
            · rw [hpk] at h3p
              simp at h3p
      · obtain ⟨d, rfl⟩ : ∃ d, k = pre.length + d := ⟨k - pre.length, by omega⟩
        rw [drop_append_left]
        exact (containsSub_eq_false_iff _ _).1 hout _

theorem removeMarkers_no_triple (resp : Str) :
    containsSub (chars "```") (removeMarkers resp) = false := by
  rw [removeMarkers, reSubDel]
  exact reSubDelGo_no_triple (resp.length + 1) resp (Nat.lt_succ_self _)

/-! ### Orchestrator branch lemmas -/

theorem apply_search_replace_format_invalid {orig resp : Str}
    {ops : List SearchReplaceOperation}
    (hp : parse_search_replace_response resp = ops) (hne : ops ≠ [])
    (hv : (validate_operations orig ops).1 = false) :
    apply_search_replace_format orig resp =
      (orig, false, chars "Invalid SEARCH/REPLACE operations: " ++
        (validate_operations orig ops).2) := by
  refine apply_search_replace_format_eq_of_body ?_
  rw [format_body, hp, if_neg hne, if_neg (by rw [hv]; exact Bool.false_ne_true)]

theorem apply_search_replace_format_fallback {orig resp : Str} {b : Str} {bs : List Str}
    (hops : parse_search_replace_response resp = [])
    (hfb : findall_code_blocks resp = b :: bs) :
    apply_search_replace_format orig resp =
      (pyStrip b, true, chars "Fallback to code block extraction") := by
  refine apply_search_replace_format_eq_of_body ?_
  rw [format_body, hops, if_pos rfl, hfb]

theorem format_body_false_fst {orig resp : Str} {t m : Str}
    (h : format_body orig resp = .ok (t, false, m)) : t = orig := by
  rw [format_body] at h
  by_cases hops : parse_search_replace_response resp = []
  · rw [if_pos hops] at h
    cases hfb : findall_code_blocks resp with
    | cons b bs =>
      rw [hfb] at h
      injection h with h1
      have : true = false := congrArg (fun x => x.2.1) h1
      cases this
    | nil =>
      rw [hfb] at h
      injection h with h1
      exact (congrArg Prod.fst h1).symm
  · rw [if_neg hops] at h
    by_cases hv : (validate_operations orig (parse_search_replace_response resp)).1 = true
    · rw [if_pos hv] at h
      obtain ⟨t', ht'⟩ := apply_search_replace_operations_ok
        (parse_search_replace_response resp) orig
      rw [ht'] at h
      injection h with h1
      have : true = false := congrArg (fun x => x.2.1) h1
      cases this
    · rw [if_neg hv] at h
      injection h with h1
      exact (congrArg Prod.fst h1).symm

/-! ### Claim theorems -/

/-- Claim C1, counterexample: original text `"A"` with the two operations
    `"A"→"B"` and `"B"→"C"`, where `"B"` only occurs after the first edit is
    applied.  The claim predicts that the forward order succeeds and applies
    both; in fact the validator resolves every operation against the
    *original* text, so the forward order already fails validation and
    returns the original text with success = false. -/
theorem c1_forward_order_counterexample :
    apply_search_replace_format (chars "A")
      (chars "<<<<<<< SEARCH\nA\n=======\nB\n>>>>>>> REPLACE\n<<<<<<< SEARCH\nB\n=======\nC\n>>>>>>> REPLACE") =
      (chars "A", false,
        chars "Invalid SEARCH/REPLACE operations: SEARCH block 2 not found: 'B...'") ∧
    (apply_search_replace_format (chars "A")
      (chars "<<<<<<< SEARCH\nA\n=======\nB\n>>>>>>> REPLACE\n<<<<<<< SEARCH\nB\n=======\nC\n>>>>>>> REPLACE")).2.1 ≠ true := by
  refine ⟨by decide, by decide⟩

/-- Claim C1 (amended): for two operations where the second one's
    `search_text` resolves neither exactly nor via the normalized window
    check against the original text, the orchestrator fails validation and
    returns the original text with success = false in *both* orders: the
    validator checks every operation against the original text, so
    sequential dependence is honoured only by the applicator, never by
    validation. -/
theorem c1_both_orders_fail_validation (orig : Str) (op1 op2 : SearchReplaceOperation)
    (r12 r21 : Str)
    (h12 : parse_search_replace_response r12 = [op1, op2])
    (h21 : parse_search_replace_response r21 = [op2, op1])
    (h2 : resolvable_in orig op2 = false) :
    apply_search_replace_format orig r12 =
      (orig, false, chars "Invalid SEARCH/REPLACE operations: " ++
        (validate_operations orig [op1, op2]).2) ∧
    apply_search_replace_format orig r21 =
      (orig, false, chars "Invalid SEARCH/REPLACE operations: " ++
        (validate_operations orig [op2, op1]).2) := by
  constructor
  · exact apply_search_replace_format_invalid h12 (List.cons_ne_nil _ _)
      (validate_go_fst_false_of_mem (List.mem_cons_of_mem _ (List.mem_cons_self _ _)) h2 0)
  · exact apply_search_replace_format_invalid h21 (List.cons_ne_nil _ _)
      (validate_go_fst_false_of_mem (List.mem_cons_self _ _) h2 0)

theorem c1_both_orders_fail_validation_witness :
    apply_search_replace_format (chars "A")
      (chars "<<<<<<< SEARCH\nA\n=======\nB\n>>>>>>> REPLACE\n<<<<<<< SEARCH\nB\n=======\nC\n>>>>>>> REPLACE") =
      (chars "A", false,
        chars "Invalid SEARCH/REPLACE operations: SEARCH block 2 not found: 'B...'") ∧
    apply_search_replace_format (chars "A")
      (chars "<<<<<<< SEARCH\nB\n=======\nC\n>>>>>>> REPLACE\n<<<<<<< SEARCH\nA\n=======\nB\n>>>>>>> REPLACE") =
      (chars "A", false,
        chars "Invalid SEARCH/REPLACE operations: SEARCH block 1 not found: 'B...'") := by
  have h := c1_both_orders_fail_validation (chars "A")
    ⟨chars "A", chars "B"⟩ ⟨chars "B", chars "C"⟩
    (chars "<<<<<<< SEARCH\nA\n=======\nB\n>>>>>>> REPLACE\n<<<<<<< SEARCH\nB\n=======\nC\n>>>>>>> REPLACE")
    (chars "<<<<<<< SEARCH\nB\n=======\nC\n>>>>>>> REPLACE\n<<<<<<< SEARCH\nA\n=======\nB\n>>>>>>> REPLACE")
    (by decide) (by decide) (by decide)
  constructor
  · rw [h.1]
    decide
  · rw [h.2]
    decide

/-- Claim C2, counterexample: the fallback extractor's pattern admits only
    the tags `rust`, `verus`, or none, so a response whose single fenced
    block carries the tag `python` yields no fallback: the orchestrator
    returns the original text with success = false, not the block content
    with success = true as the claim ("any language tag") predicts. -/
theorem c2_language_tag_counterexample :
    apply_search_replace_format (chars "x=1") (chars "```python\nx=2\n```") =
      (chars "x=1", false, chars "No SEARCH/REPLACE operations or code blocks found") ∧
    (apply_search_replace_format (chars "x=1") (chars "```python\nx=2\n```")).2.1 ≠ true := by
  refine ⟨by decide, by decide⟩

/-- Claim C2 (amended): when the parser extracts zero operations and the
    fallback pattern (an opening fence with tag `rust`, `verus` or none,
    optional whitespace, a newline, then a closing fence) finds at least one
    block, the orchestrator returns the first block's content with leading
    and trailing whitespace stripped (not verbatim), success = true, and the
    fallback message; on the spec's instance (`"x=1"`, a bare fenced block
    `"x=2"`) the outcome is `("x=2", true, fallback message)`. -/
theorem c2_fallback_extraction (orig resp : Str) (b : Str) (bs : List Str)
    (hops : parse_search_replace_response resp = [])
    (hfb : findall_code_blocks resp = b :: bs) :
    apply_search_replace_format orig resp =
      (pyStrip b, true, chars "Fallback to code block extraction") :=
  apply_search_replace_format_fallback hops hfb

theorem c2_fallback_extraction_witness :
    apply_search_replace_format (chars "x=1") (chars "```\nx=2\n```") =
      (chars "x=2", true, chars "Fallback to code block extraction") := by
  have h := c2_fallback_extraction (chars "x=1") (chars "```\nx=2\n```")
    (chars "x=2\n") [] (by decide) (by decide)
  rw [h]
  decide

/-- Claim C3, counterexample: an operation whose `search_text` equals its
    `replace_text` resolved through the normalized fallback need not leave
    the text byte-identical: on text `"a"` with search = replace = `"a "`
    (trailing space), the normalized path rebuilds the line as `"a "` ≠
    `"a"`. -/
theorem c3_normalized_noop_counterexample :
    apply_single_operation (chars "a") ⟨chars "a ", chars "a "⟩ = .ok (chars "a ") ∧
    chars "a " ≠ chars "a" := by
  refine ⟨by decide, by decide⟩

/-- Claim C3 (amended): an operation whose `search_text` equals its
    `replace_text` leaves the text byte-identical whenever it resolves via
    an exact substring occurrence; the normalized fallback path may instead
    re-derive whitespace (re-indentation and line-join normalization). -/
theorem c3_exact_noop (code : Str) (op : SearchReplaceOperation)
    (hcs : containsSub op.search_text code = true)
    (he : op.replace_text = op.search_text) :
    apply_single_operation code op = .ok code :=
  apply_single_operation_exact_noop hcs he

theorem c3_exact_noop_witness :
    apply_single_operation (chars "ab") ⟨chars "a", chars "a"⟩ = .ok (chars "ab") :=
  c3_exact_noop (chars "ab") ⟨chars "a", chars "a"⟩ (by decide) rfl

/-- Claim C4 (confirmed): the orchestrator is a total function returning a
    (text, success, message) triple: the pipeline's only fallible step (the
    list indexing inside `_replace_at_line_index`) is proved in-bounds, so
    the `try`/`except` boundary never propagates a fault; and every outcome
    with success = false carries the original text unchanged. -/
theorem c4_total_and_failure_preserves_original (original_code llm_response : Str) :
    (∃ t, format_body original_code llm_response = .ok t ∧
      apply_search_replace_format original_code llm_response = t) ∧
    ((apply_search_replace_format original_code llm_response).2.1 = false →
      (apply_search_replace_format original_code llm_response).1 = original_code) := by
  obtain ⟨t, ht⟩ := format_body_ok original_code llm_response
  have heq := apply_search_replace_format_eq_of_body ht
  refine ⟨⟨t, ht, heq⟩, ?_⟩
  intro hfail
  rw [heq] at hfail ⊢
  obtain ⟨tx, ts, tm⟩ := t
  have hts : ts = false := hfail
  subst hts
  exact format_body_false_fst ht

theorem c4_total_and_failure_preserves_original_witness :
    (∃ t, format_body (chars "q") (chars "hi") = .ok t ∧
      apply_search_replace_format (chars "q") (chars "hi") = t) ∧
    (apply_search_replace_format (chars "q") (chars "hi")).1 = chars "q" := by
  have h := c4_total_and_failure_preserves_original (chars "q") (chars "hi")
  exact ⟨h.1, h.2 (by decide)⟩

/-- Claim C5, counterexample: with target `"AAA"` and search `"AA"` the
    search text occurs (exactly) at offsets 0 and 1; replacing the first
    occurrence destroys the overlapping later occurrence, so "leaves every
    later occurrence unchanged" fails for overlapping occurrences: the
    result `"BA"` no longer contains `"AA"`. -/
theorem c5_overlap_counterexample :
    find_all_matches (chars "AAA") (chars "AA") = [0, 1] ∧
    apply_single_operation (chars "AAA") ⟨chars "AA", chars "B"⟩ = .ok (chars "BA") ∧
    containsSub (chars "AA") (chars "BA") = false := by
  refine ⟨by decide, by decide, by decide⟩

/-- Claim C5 (amended): when the search text occurs exactly more than once,
    the applicator replaces precisely the first (lowest-offset) occurrence —
    the result is the prefix before it, the replacement, and the untouched
    suffix after it — and every later occurrence that does not overlap the
    replaced span reappears unchanged at its shifted offset; in particular
    `"A\nA\n"` with `"A"→"B"` yields `"B\nA\n"`. -/
theorem c5_first_occurrence (code : Str) (op : SearchReplaceOperation) (p q : Nat)
    (rest : List Nat)
    (h : find_all_matches code op.search_text = p :: q :: rest) :
    apply_single_operation code op =
      .ok (code.take p ++ op.replace_text ++ code.drop (p + op.search_text.length)) ∧
    ∀ q' ∈ find_all_matches code op.search_text, p + op.search_text.length ≤ q' →
      op.search_text.isPrefixOf
        ((code.take p ++ op.replace_text ++ code.drop (p + op.search_text.length)).drop
          (q' - op.search_text.length + op.replace_text.length)) = true := by
  constructor
  · rw [apply_single_operation_exact h]
    rfl
  · intro q' hq' hge
    have hple : p ≤ code.length := by
      have := (mem_find_all_matches.1 (h ▸ List.mem_cons_self p _)).1
      omega
    exact isPrefixOf_replace_at_position_of_later hple (mem_find_all_matches.1 hq').2 hge

theorem c5_first_occurrence_witness :
    apply_single_operation (chars "A\nA\n") ⟨chars "A", chars "B"⟩ =
      .ok (chars "B\nA\n") := by
  have h := (c5_first_occurrence (chars "A\nA\n") ⟨chars "A", chars "B"⟩ 0 2 []
    (by decide)).1
  rw [h]
  decide

/-- Claim C6 (confirmed): if every operation before `op` is resolvable
    against the original text and `op` is not (neither exactly nor via the
    normalized window check), validation fails at `op` regardless of what
    follows it (short-circuit), and the orchestrator returns the original
    text with success = false and a message naming the operation's 1-based
    index and the 50-character preview of its search text. -/
theorem c6_validation_short_circuit (orig resp : Str)
    (pre : List SearchReplaceOperation) (op : SearchReplaceOperation)
    (post : List SearchReplaceOperation)
    (hp : parse_search_replace_response resp = pre ++ op :: post)
    (hpre : ∀ o ∈ pre, resolvable_in orig o = true)
    (hop : resolvable_in orig op = false) :
    (∀ post' : List SearchReplaceOperation,
      validate_operations orig (pre ++ op :: post') =
        (false, validation_fail_msg pre.length op)) ∧
    apply_search_replace_format orig resp =
      (orig, false, chars "Invalid SEARCH/REPLACE operations: " ++
        validation_fail_msg pre.length op) := by
  have hval : ∀ post' : List SearchReplaceOperation,
      validate_operations orig (pre ++ op :: post') =
        (false, validation_fail_msg pre.length op) := by
    intro post'
    rw [validate_operations, validate_go_append_fail post' hpre hop 0, Nat.zero_add]
  refine ⟨hval, ?_⟩
  have hne : pre ++ op :: post ≠ [] := by
    intro hnil
    exact List.cons_ne_nil op post (List.append_eq_nil.1 hnil).2
  have h1 := apply_search_replace_format_invalid hp hne (by rw [hval post])
  rw [h1, hval post]

theorem c6_validation_short_circuit_witness :
    validate_operations (chars "A") [⟨chars "Q", chars "R"⟩] =
      (false, chars "SEARCH block 1 not found: 'Q...'") ∧
    apply_search_replace_format (chars "A")
      (chars "<<<<<<< SEARCH\nQ\n=======\nR\n>>>>>>> REPLACE") =
      (chars "A", false,
        chars "Invalid SEARCH/REPLACE operations: SEARCH block 1 not found: 'Q...'") := by
  have h := c6_validation_short_circuit (chars "A")
    (chars "<<<<<<< SEARCH\nQ\n=======\nR\n>>>>>>> REPLACE")
    [] ⟨chars "Q", chars "R"⟩ []
    (by decide) (by intro o ho; cases ho) (by decide)
  have h0 := h.1 []
  rw [List.nil_append] at h0
  constructor
  · rw [h0]
    decide
  · rw [h.2]
    decide

/-- Claim C7, counterexample: with a window indented 4 spaces and
    `replace_text = "\n  b"`, the first *non-blank* replacement line is the
    second line, which is emitted with base_indent + its own width = 6
    spaces, not "exactly base_indent" (4) as the claim states for the first
    non-blank line: the special exactly-base rule applies to line 0 only. -/
theorem c7_blank_first_line_counterexample :
    apply_single_operation (chars "    x") ⟨chars "x  ", chars "\n  b"⟩ =
      .ok (chars "\n      b") ∧
    chars "\n      b" ≠ chars "\n    b" := by
  refine ⟨by decide, by decide⟩

/-- Claim C7 (amended): on the normalized fallback path, with base_indent
    the leading-whitespace width of the first matched target line: line 0 of
    `replace_text`, if non-blank, is emitted with exactly base_indent
    leading spaces (its own leading whitespace discarded); every later
    non-blank line is emitted with base_indent plus its own leading width;
    blank lines (including a blank line 0) are emitted unmodified; the
    matched window is replaced by these lines. -/
theorem c7_reindentation (code : Str) (op : SearchReplaceOperation) (i : Nat)
    (rest : List Nat)
    (hna : containsSub op.search_text code = false)
    (hm : normMatches (pySplitlines code) (pySplitlines op.search_text) = i :: rest) :
    apply_single_operation code op =
      .ok (List.intercalate (chars "\n")
        ((pySplitlines code).take i ++
          prepare_replace_lines (indentWidth ((pySplitlines code).getD i []))
            (pySplitlines op.replace_text) ++
          (pySplitlines code).drop (i + (pySplitlines op.search_text).length))) ∧
    (∀ (b : Nat) (r0 : Str) (rs : List Str),
      (pyStrip r0 ≠ [] →
        (prepare_replace_lines b (r0 :: rs)).getD 0 [] =
          List.replicate b ' ' ++ pyLstrip r0 ∧
        indentWidth ((prepare_replace_lines b (r0 :: rs)).getD 0 []) = b) ∧
      (pyStrip r0 = [] → (prepare_replace_lines b (r0 :: rs)).getD 0 [] = r0) ∧
      (∀ k, k < rs.length →
        (pyStrip (rs.getD k []) ≠ [] →
          (prepare_replace_lines b (r0 :: rs)).getD (k + 1) [] =
            List.replicate (b + indentWidth (rs.getD k [])) ' ' ++
              pyLstrip (rs.getD k []) ∧
          indentWidth ((prepare_replace_lines b (r0 :: rs)).getD (k + 1) []) =
            b + indentWidth (rs.getD k [])) ∧
        (pyStrip (rs.getD k []) = [] →
          (prepare_replace_lines b (r0 :: rs)).getD (k + 1) [] = rs.getD k []))) := by
  constructor
  · rw [apply_single_operation_normalized hna,
      apply_with_normalized_whitespace_eq_replace hm,
      replace_at_line_index_eq (head_normMatches_lt hna hm)]
  · intro b r0 rs
    refine ⟨?_, ?_, ?_⟩
    · intro hne
      rw [prepare_replace_lines_getD_zero, if_pos hne]
      cases hls : pyLstrip r0 with
      | nil => exact absurd hls (pyLstrip_ne_nil_of_pyStrip_ne_nil hne)
      | cons c t =>
        exact ⟨rfl, indentWidth_replicate_append (pyLstrip_head_not_ws hls)⟩
    · intro hbl
      rw [prepare_replace_lines_getD_zero, if_neg (by rw [hbl]; simp)]
    · intro k hk
      rw [prepare_replace_lines_getD_succ b r0 rs k hk]
      constructor
      · intro hne
        rw [if_pos hne]
        cases hls : pyLstrip (rs.getD k []) with
        | nil => exact absurd hls (pyLstrip_ne_nil_of_pyStrip_ne_nil hne)
        | cons c t =>
          exact ⟨rfl, indentWidth_replicate_append (pyLstrip_head_not_ws hls)⟩
      · intro hbl
        rw [if_neg (by rw [hbl]; simp)]

theorem c7_reindentation_witness :
    apply_single_operation (chars "    x") ⟨chars "x  ", chars "a\n  b"⟩ =
      .ok (chars "    a\n      b") := by
  have h := (c7_reindentation (chars "    x") ⟨chars "x  ", chars "a\n  b"⟩ 0 []
    (by decide) (by decide)).1
  rw [h]
  decide

/-- Claim C8 (confirmed): when an operation's search text has no exact
    occurrence in the target but some contiguous window of target lines
    matches it line-by-line after stripping, the validator accepts the
    operation and the applicator performs the replacement at such a window
    (the first one) rather than taking the silent no-op branch. -/
theorem c8_whitespace_tolerance (code : Str) (op : SearchReplaceOperation) (i : Nat)
    (rest : List Nat)
    (hna : containsSub op.search_text code = false)
    (hm : normMatches (pySplitlines code) (pySplitlines op.search_text) = i :: rest) :
    validate_operations code [op] = (true, chars "Valid") ∧
    apply_single_operation code op = replace_at_line_index (pySplitlines code) op i ∧
    ∃ t, replace_at_line_index (pySplitlines code) op i = .ok t := by
  have hres : resolvable_in code op = true := by
    rw [resolvable_in, hm]
    simp
  refine ⟨?_, ?_, ?_⟩
  · rw [validate_operations, validate_go_cons, if_pos hres, validate_go]
  · rw [apply_single_operation_normalized hna,
      apply_with_normalized_whitespace_eq_replace hm]
  · rw [replace_at_line_index_eq (head_normMatches_lt hna hm)]
    exact ⟨_, rfl⟩

theorem c8_whitespace_tolerance_witness :
    validate_operations (chars "  a") [⟨chars "    a", chars "z"⟩] =
      (true, chars "Valid") ∧
    apply_single_operation (chars "  a") ⟨chars "    a", chars "z"⟩ =
      replace_at_line_index (pySplitlines (chars "  a")) ⟨chars "    a", chars "z"⟩ 0 ∧
    ∃ t, replace_at_line_index (pySplitlines (chars "  a"))
      ⟨chars "    a", chars "z"⟩ 0 = .ok t :=
  c8_whitespace_tolerance (chars "  a") ⟨chars "    a", chars "z"⟩ 0 []
    (by decide) (by decide)

/-- Claim C9 (confirmed): before scanning for edit blocks the parser deletes
    every fenced-code marker occurrence anywhere in the response — no three
    consecutive backticks survive the marker-stripping `re.sub` — and
    consequently a fence marker line inside an edit block's SEARCH section
    is removed from the parsed operation's text, as witnessed on a
    representative response where the literal lines `a`, "```", `b` between
    the markers parse as search text `"a\nb"`. -/
theorem c9_global_marker_deletion :
    (∀ resp : Str, containsSub (chars "```") (removeMarkers resp) = false) ∧
    parse_search_replace_response
      (chars "<<<<<<< SEARCH\na\n```\nb\n=======\nc\n>>>>>>> REPLACE") =
      [⟨chars "a\nb", chars "c"⟩] :=
  ⟨removeMarkers_no_triple, by decide⟩

/-- Claim C10, counterexample: normalized-path output is the `'\n'`-join of
    the spliced line list, but that does *not* make a trailing input newline
    absent from the output in general: on `"a\n\n"` (which ends with a
    newline) replacing the line `"a"` yields `"b\n"`, which still ends with
    a newline, because `splitlines` keeps the empty line between the two
    terminators. -/
theorem c10_trailing_newline_counterexample :
    apply_single_operation (chars "a\n\n") ⟨chars " a", chars "b"⟩ =
      .ok (chars "b\n") ∧
    (chars "a\n\n").getLast? = some '\n' ∧ (chars "b\n").getLast? = some '\n' := by
  refine ⟨by decide, by decide, by decide⟩

/-- Claim C10 (amended): whenever an operation is applied via the normalized
    fallback and a candidate window exists, the result is the `'\n'`-join of
    the spliced line list; consequently every `'\r\n'` (or lone `'\r'`)
    terminator of the input becomes `'\n'` — no `'\r'` remains — and exactly
    the input's final line terminator is dropped (so `"A\n"` loses its
    trailing newline, while an input whose last line is empty keeps one).
    The exact-match path performs no such normalization: `'\r\n'` survives
    verbatim there. -/
theorem c10_normalized_join (code : Str) (op : SearchReplaceOperation) (i : Nat)
    (rest : List Nat)
    (hna : containsSub op.search_text code = false)
    (hm : normMatches (pySplitlines code) (pySplitlines op.search_text) = i :: rest) :
    (∃ t, apply_single_operation code op = .ok t ∧
      t = List.intercalate (chars "\n")
        ((pySplitlines code).take i ++
          prepare_replace_lines (indentWidth ((pySplitlines code).getD i []))
            (pySplitlines op.replace_text) ++
          (pySplitlines code).drop (i + (pySplitlines op.search_text).length)) ∧
      '\r' ∉ t) ∧
    apply_single_operation (chars "A\n") ⟨chars " A", chars "B"⟩ = .ok (chars "B") ∧
    apply_single_operation (chars "a\r\nX") ⟨chars "X", chars "Y"⟩ =
      .ok (chars "a\r\nY") := by
  refine ⟨?_, by decide, by decide⟩
  refine ⟨_, ?_, rfl, ?_⟩
  · rw [apply_single_operation_normalized hna,
      apply_with_normalized_whitespace_eq_replace hm,
      replace_at_line_index_eq (head_normMatches_lt hna hm)]
  · refine not_mem_intercalate (by decide) ?_
    intro l hl
    rcases List.mem_append.1 hl with hl1 | hl2
    · rcases List.mem_append.1 hl1 with hl3 | hl4
      · exact cr_not_mem_pySplitlines ((List.take_sublist _ _).mem hl3)
      · exact cr_not_mem_prepare_replace_lines
          (fun x hx => cr_not_mem_pySplitlines hx) hl4
    · exact cr_not_mem_pySplitlines ((List.drop_sublist _ _).mem hl2)

theorem c10_normalized_join_witness :
    ∃ t, apply_single_operation (chars "  q") ⟨chars "    q", chars "z"⟩ = .ok t ∧
      '\r' ∉ t := by
  obtain ⟨t, h1, _, h3⟩ := (c10_normalized_join (chars "  q")
    ⟨chars "    q", chars "z"⟩ 0 [] (by decide) (by decide)).1
  exact ⟨t, h1, h3⟩
